import Mathlib

/-!
Verification of the SignForge bounded inference queue and orchestration
service (signforge/inference/queue.py and signforge/inference/service.py).

Shallow embedding conventions:
- Python object identity is replaced by identifier indirection: the job
  registry (the Python dict `self._items`) is an insertion-ordered
  association list from identifiers to job records, and the FIFO
  (`queue.Queue`) holds identifiers.  All mutation of a job record goes
  through the registry, matching the fact that in the source the queue,
  the registry and the worker all reference the same record object.
- `uuid.uuid4()` is abstracted to a strictly increasing counter `nextId`,
  so identifier order coincides with submission order.
- `datetime.now()` is abstracted to a logical clock `time` that advances
  at each operation that reads the wall clock in the source.
- A Python value (request payloads and results) is `PyVal`, carrying the
  truthiness used by `if not item.result` in the source.
- Exceptions become `Except`: the configurable worker callback has type
  `QueueItem -> Except String PyVal` where the error string is the
  `str(e)` stored in the record, and file logging (`log_to_file`) is a
  function `Nat -> Req -> Except String Unit` standing for external I/O
  that may raise.
- Threading is replaced by an interleaving step relation `Step`: the
  two halves of a worker-loop iteration (dequeue-and-mark-processing,
  then run-the-callback) are separate steps, so client operations can be
  interleaved between them exactly as threads interleave in the source.
-/

/-- A Python value, as far as the queue core inspects one: the request
payload and result payload are dicts, and the source tests truthiness of
the stored result. -/
inductive PyVal where
| vNone : PyVal
| vInt (n : Int) : PyVal
| vStr (s : String) : PyVal
| vDict (entries : List (String × PyVal)) : PyVal

/-- Python truthiness for the fragment of values we model, as used by
the source in the test `if not item or not item.result`. -/
def pyTruthy : PyVal → Bool
| PyVal.vNone => false
| PyVal.vInt n => if n = 0 then false else true
| PyVal.vStr s => if s = "" then false else true
| PyVal.vDict es => !es.isEmpty

/-- Python `not x` on an optional value: true when the slot is `None`
or holds a falsy value. -/
def pyNotOpt : Option PyVal → Bool
| none => true
| some v => !pyTruthy v

/-- A request payload: a Python dict from string keys to values. -/
def Req : Type := List (String × PyVal)

/-- Python `d.get(k, dflt)` on a dict. -/
def pyDictGet (d : Req) (k : String) (dflt : PyVal) : PyVal :=
  match d.find? (fun p => p.1 == k) with
  | some p => p.2
  | none => dflt

/-- `ItemStatus` from queue.py. -/
inductive ItemStatus where
| pending : ItemStatus
| processing : ItemStatus
| completed : ItemStatus
| failed : ItemStatus
| cancelled : ItemStatus
deriving DecidableEq

/-- True on the terminal statuses Completed, Failed, Cancelled. -/
def terminalB (st : ItemStatus) : Bool :=
  st == ItemStatus.completed || st == ItemStatus.failed || st == ItemStatus.cancelled

/-- `QueueItem` from queue.py: one job record.  Identifiers are the
abstracted uuids, timestamps are logical clock readings. -/
structure QueueItem where
  id : Nat
  request : Req
  status : ItemStatus
  createdAt : Nat
  startedAt : Option Nat
  completedAt : Option Nat
  result : Option PyVal
  error : Option String
  progress : Int
  totalSteps : PyVal

/-- `QueueFullError` from core/errors.py: carries the queue size observed
at raise time and the configured maximum. -/
structure QueueFullError where
  queueSize : Nat
  maxSize : Nat
deriving DecidableEq

/-- First-match lookup in the registry association list, the embedding of
`self._items.get(item_id)`. -/
def lookupA (l : List (Nat × QueueItem)) (k : Nat) : Option QueueItem :=
  match l with
  | [] => none
  | p :: t => if p.1 = k then some p.2 else lookupA t k

/-- In-place mutation of the record stored under a key, the embedding of
field assignment on the shared record object. -/
def updateA (l : List (Nat × QueueItem)) (k : Nat) (f : QueueItem → QueueItem) :
    List (Nat × QueueItem) :=
  l.map (fun p => if p.1 = k then (p.1, f p.2) else p)

/-- Python dict assignment `d[k] = v`: overwrite in place if the key
exists, else append (dicts preserve insertion order). -/
def insertA (l : List (Nat × QueueItem)) (k : Nat) (v : QueueItem) :
    List (Nat × QueueItem) :=
  if l.any (fun p => p.1 == k) then
    l.map (fun p => if p.1 = k then (p.1, v) else p)
  else
    l ++ [(k, v)]

/-- State of `InferenceQueue`: the bounded FIFO of identifiers, the job
registry, the running flag, the current-job pointer, plus the abstracted
uuid counter and logical clock. -/
structure InferenceQueue where
  maxSize : Nat
  timeout : Nat
  queue : List Nat
  items : List (Nat × QueueItem)
  running : Bool
  currentItem : Option Nat
  nextId : Nat
  time : Nat

/-- Python `x or default` on an optional integer argument: `None` and the
falsy `0` both select the default. -/
def pyOrNat : Option Nat → Nat → Nat
| none, d => d
| some 0, d => d
| some (n + 1), _ => n + 1

/-- `InferenceQueue.__init__`: `max_size or config.inference.max_queue_size`
with the config default 10, `timeout or config.inference.timeout_seconds`
with the config default 120.  Note that the constructor never fails: a 0
argument silently falls back to the default. -/
def mkQueue (maxSize? : Option Nat) (timeout? : Option Nat) : InferenceQueue :=
  { maxSize := pyOrNat maxSize? 10
    timeout := pyOrNat timeout? 120
    queue := []
    items := []
    running := false
    currentItem := none
    nextId := 0
    time := 0 }

/-- `InferenceQueue.start`: a no-op when already running, otherwise sets
the running flag (and spawns the worker thread, which in this embedding
is the availability of the worker steps). -/
def queueStart (s : InferenceQueue) : InferenceQueue :=
  if s.running then s else { s with running := true }

/-- `InferenceQueue.stop`: clears the running flag (the join has no
state effect). -/
def queueStop (s : InferenceQueue) : InferenceQueue :=
  { s with running := false }

/-- `InferenceQueue.submit`: if the underlying queue is full
(`0 < maxsize <= qsize`), raise `QueueFullError(qsize, max_size)` without
creating or registering any record and without blocking; otherwise create
the record with a fresh id and status Pending, register it, enqueue its
id, and return it. -/
def submitQ (s : InferenceQueue) (r : Req) :
    Except QueueFullError QueueItem × InferenceQueue :=
  if 0 < s.maxSize ∧ s.maxSize ≤ s.queue.length then
    (Except.error ⟨s.queue.length, s.maxSize⟩, s)
  else
    let it : QueueItem :=
      { id := s.nextId
        request := r
        status := ItemStatus.pending
        createdAt := s.time
        startedAt := none
        completedAt := none
        result := none
        error := none
        progress := 0
        totalSteps := pyDictGet r "steps" (PyVal.vInt 30) }
    (Except.ok it,
      { s with
        items := insertA s.items s.nextId it
        queue := s.queue ++ [s.nextId]
        nextId := s.nextId + 1
        time := s.time + 1 })

/-- `InferenceQueue.get_item`. -/
def getItemQ (s : InferenceQueue) (id : Nat) : Option QueueItem :=
  lookupA s.items id

/-- The mutation performed on the record the worker just dequeued:
status Processing, `started_at` stamped. -/
def markProcessing (now : Nat) (it : QueueItem) : QueueItem :=
  { it with status := ItemStatus.processing, startedAt := some now }

/-- First half of a worker-loop iteration: `self._queue.get(timeout=1)`
followed by publishing the current item, marking it Processing and
stamping `started_at`.  An empty queue is the `queue.Empty` branch, a
no-op (`continue`). -/
def dequeueQ (s : InferenceQueue) : InferenceQueue :=
  match s.queue with
  | [] => s
  | id :: rest =>
    { s with
      queue := rest
      items := updateA s.items id (markProcessing s.time)
      currentItem := some id
      time := s.time + 1 }

/-- The configurable worker callback (`worker_fn`): may return a value or
raise, in which case the string is what `str(e)` yields. -/
def WorkerFn : Type := QueueItem → Except String PyVal

/-- The outcome written to the current record by the try/except/finally
of the worker loop: on success store the result and mark Completed; on
an exception mark Failed with the stringified error; with no callback
configured mark Failed with the fixed message.  The `finally` block
stamps `completed_at` in every case. -/
def finishItem (wf : Option WorkerFn) (now : Nat) (it : QueueItem) : QueueItem :=
  match wf with
  | some f =>
    match f it with
    | Except.ok v =>
      { it with result := some v, status := ItemStatus.completed,
                completedAt := some now }
    | Except.error m =>
      { it with status := ItemStatus.failed, error := some m,
                completedAt := some now }
  | none =>
    { it with status := ItemStatus.failed,
              error := some "No worker function configured",
              completedAt := some now }

/-- Second half of a worker-loop iteration: run the callback on the
current item and write the outcome; the `finally` block also clears the
current-item pointer, and the loop keeps running in every case. -/
def workerProcessQ (wf : Option WorkerFn) (s : InferenceQueue) : InferenceQueue :=
  match s.currentItem with
  | none => s
  | some cid =>
    match lookupA s.items cid with
    | none => { s with currentItem := none }
    | some it =>
      { s with
        items := updateA s.items cid (fun _ => finishItem wf s.time it)
        currentItem := none
        time := s.time + 1 }

/-- One full worker-loop iteration: dequeue then process. -/
def iterateQ (wf : Option WorkerFn) (s : InferenceQueue) : InferenceQueue :=
  workerProcessQ wf (dequeueQ s)

/-- Iterated worker-loop iterations. -/
def iterateN (wf : Option WorkerFn) : Nat → InferenceQueue → InferenceQueue
| 0, s => s
| n + 1, s => iterateN wf n (iterateQ wf s)

/-- `InferenceQueue.set_progress`: looks the record up and, when present,
overwrites its progress and total steps.  There is no status guard in the
source: the update applies to records in any status. -/
def setProgressQ (s : InferenceQueue) (id : Nat) (p : Int) (t : Int) : InferenceQueue :=
  { s with
    items := updateA s.items id
      (fun it => { it with progress := p, totalSteps := PyVal.vInt t }) }

/-- The removal condition of `cleanup_old`: status Completed or Failed,
a set terminal timestamp, and age strictly beyond the threshold. -/
def shouldRemoveB (now maxAge : Nat) (it : QueueItem) : Bool :=
  (it.status == ItemStatus.completed || it.status == ItemStatus.failed) &&
  (match it.completedAt with
   | some t => decide (maxAge < now - t)
   | none => false)

/-- `InferenceQueue.cleanup_old`: remove old terminal records, returning
the number removed. -/
def cleanupOld (s : InferenceQueue) (maxAge : Nat) : Nat × InferenceQueue :=
  let keep := s.items.filter (fun p => !(shouldRemoveB s.time maxAge p.2))
  (s.items.length - keep.length, { s with items := keep })

/-- The result-retrieval body shared by the service: the source runs
`if not item or not item.result: return None; return item.result`.  Note
the truthiness test: a falsy stored result is reported as absent. -/
def getResultQ (s : InferenceQueue) (id : Nat) : Option PyVal :=
  match lookupA s.items id with
  | none => none
  | some it => if pyNotOpt it.result then none else it.result

/-- The dict produced by `QueueItem.to_dict`, the status view served by
`InferenceService.get_status`. -/
structure StatusView where
  id : Nat
  status : ItemStatus
  createdAt : Nat
  startedAt : Option Nat
  completedAt : Option Nat
  progress : Int
  totalSteps : PyVal
  error : Option String

/-- `QueueItem.to_dict`. -/
def toDictView (it : QueueItem) : StatusView :=
  { id := it.id
    status := it.status
    createdAt := it.createdAt
    startedAt := it.startedAt
    completedAt := it.completedAt
    progress := it.progress
    totalSteps := it.totalSteps
    error := it.error }

/-- State of `InferenceService` relevant to the queue core: the optional
queue (None before `start`) and the request-log file contents
(`requests.jsonl`), modelled as the list of appended entries.  The
pipeline, LoRA manager, session id and output directory are external
collaborators with no effect on the queue core. -/
structure ServiceState where
  queue : Option InferenceQueue
  loggedRequests : List (Nat × Req)

/-- The request-logging sink (`log_to_file` on requests.jsonl): external
file I/O that either succeeds or raises with a message. -/
def LogFn : Type := Nat → Req → Except String Unit

/-- The outcome of `InferenceService.submit`: the RuntimeError raised when
the service is not started, a propagated `QueueFullError`, or a propagated
logging exception. -/
inductive SubmitErr where
| notStarted : SubmitErr
| queueFull (e : QueueFullError) : SubmitErr
| logFailed (m : String) : SubmitErr
deriving DecidableEq

/-- The pair returned by `InferenceService.submit`. -/
structure SubmitResp where
  itemId : Nat
  status : ItemStatus
deriving DecidableEq

/-- `InferenceService.start`: installs the pipeline (external) and then a
freshly constructed `InferenceQueue` with default sizes, started.  There
is no already-started guard in the source: a previously installed queue,
together with every record registered in it, is replaced by the fresh
one.  The asynchronous model loading is external I/O with no effect on
the queue core. -/
def serviceStart (svc : ServiceState) : ServiceState :=
  { svc with queue := some (queueStart (mkQueue none none)) }

/-- `InferenceService.stop`. -/
def serviceStop (svc : ServiceState) : ServiceState :=
  match svc.queue with
  | none => svc
  | some q => { svc with queue := some (queueStop q) }

/-- `InferenceService.submit`: raise RuntimeError when not started,
delegate to the queue, then append a request-log entry.  The logging call
is not guarded in the source: an exception from it propagates out of
`submit` after the queue state has already been changed. -/
def serviceSubmit (logFn : LogFn) (svc : ServiceState) (r : Req) :
    Except SubmitErr SubmitResp × ServiceState :=
  match svc.queue with
  | none => (Except.error SubmitErr.notStarted, svc)
  | some q =>
    match submitQ q r with
    | (Except.error e, q') =>
      (Except.error (SubmitErr.queueFull e), { svc with queue := some q' })
    | (Except.ok it, q') =>
      match logFn it.id r with
      | Except.error m =>
        (Except.error (SubmitErr.logFailed m), { svc with queue := some q' })
      | Except.ok _ =>
        (Except.ok ⟨it.id, it.status⟩,
          { svc with queue := some q',
                     loggedRequests := svc.loggedRequests ++ [(it.id, r)] })

/-- `InferenceService.get_status`. -/
def serviceGetStatus (svc : ServiceState) (id : Nat) : Option StatusView :=
  match svc.queue with
  | none => none
  | some q => (lookupA q.items id).map toDictView

/-- `InferenceService.get_result`. -/
def serviceGetResult (svc : ServiceState) (id : Nat) : Option PyVal :=
  match svc.queue with
  | none => none
  | some q => getResultQ q id

/-- One interleaving step of the system: a client submits, the worker
performs either half of a loop iteration, the progress callback fires,
the cleanup job runs, or the queue is started or stopped.  `wf` is the
worker callback the queue was constructed with. -/
inductive Step (wf : Option WorkerFn) : InferenceQueue → InferenceQueue → Prop
| submit (s : InferenceQueue) (r : Req) : Step wf s (submitQ s r).2
| dequeue (s : InferenceQueue) : Step wf s (dequeueQ s)
| process (s : InferenceQueue) : Step wf s (workerProcessQ wf s)
| setProgress (s : InferenceQueue) (id : Nat) (p t : Int) :
    Step wf s (setProgressQ s id p t)
| cleanup (s : InferenceQueue) (age : Nat) : Step wf s (cleanupOld s age).2
| start (s : InferenceQueue) : Step wf s (queueStart s)
| stop (s : InferenceQueue) : Step wf s (queueStop s)

/-- Reachability by interleaving steps. -/
def Reachable (wf : Option WorkerFn) (s₀ s : InferenceQueue) : Prop :=
  Relation.ReflTransGen (Step wf) s₀ s

/-- The state invariant maintained by every operation of the queue:
registry keys are distinct; queued identifiers are strictly increasing
(submission order), all registered, all Pending, and every Pending record
is queued; the FIFO never exceeds capacity; identifiers are below the
fresh-id counter; the current item, when set, is a registered Processing
record that is no longer queued; a result is stored only on Completed
records; the capacity is positive. -/
def QueueInv (s : InferenceQueue) : Prop :=
  (s.items.map Prod.fst).Nodup ∧
  s.queue.Pairwise (· < ·) ∧
  (∀ id ∈ s.queue, ∃ p ∈ s.items, p.1 = id ∧ p.2.status = ItemStatus.pending) ∧
  (∀ p ∈ s.items, p.2.status = ItemStatus.pending → p.1 ∈ s.queue) ∧
  s.queue.length ≤ s.maxSize ∧
  (∀ p ∈ s.items, p.1 < s.nextId) ∧
  (∀ id ∈ s.queue, id < s.nextId) ∧
  (∀ cid ∈ s.currentItem.toList,
    cid ∉ s.queue ∧ cid < s.nextId ∧
    ∃ p ∈ s.items, p.1 = cid ∧ p.2.status = ItemStatus.processing) ∧
  (∀ p ∈ s.items, p.2.status ≠ ItemStatus.completed → p.2.result.isNone = true) ∧
  0 < s.maxSize

/-- The number of registered jobs in status Pending. -/
def pendingCount (s : InferenceQueue) : Nat :=
  (s.items.filter (fun p => p.2.status == ItemStatus.pending)).length

/-- The number of unresolved jobs: status Pending or Processing. -/
def unresolvedCount (s : InferenceQueue) : Nat :=
  (s.items.filter
    (fun p => p.2.status == ItemStatus.pending || p.2.status == ItemStatus.processing)).length

instance (s : InferenceQueue) : Decidable (QueueInv s) := by
  unfold QueueInv
  infer_instance

theorem lookupA_mem {l : List (Nat × QueueItem)} {k : Nat} {v : QueueItem}
    (h : lookupA l k = some v) : (k, v) ∈ l := by
  induction l with
  | nil => simp [lookupA] at h
  | cons p t ih =>
    by_cases hk : p.1 = k
    · simp only [lookupA, hk, if_pos] at h
      have : (k, v) = p := by
        cases p
        cases h
        simp_all
      rw [this]
      exact List.mem_cons_self _ _
    · simp only [lookupA, hk, if_neg, if_false] at h
      exact List.mem_cons_of_mem _ (ih h)

theorem lookupA_eq_some_of_mem {l : List (Nat × QueueItem)} {k : Nat} {v : QueueItem}
    (hd : (l.map Prod.fst).Nodup) (h : (k, v) ∈ l) : lookupA l k = some v := by
  induction l with
  | nil => simp at h
  | cons p t ih =>
    simp only [List.map_cons, List.nodup_cons] at hd
    rcases List.mem_cons.mp h with h | h
    · subst h
      simp [lookupA]
    · have hne : p.1 ≠ k := by
        intro he
        exact hd.1 (he ▸ (List.mem_map.mpr ⟨(k, v), h, rfl⟩))
      simp only [lookupA, hne, if_neg, if_false]
      exact ih hd.2 h

theorem lookupA_none_of_not_mem {l : List (Nat × QueueItem)} {k : Nat}
    (h : ∀ p ∈ l, p.1 ≠ k) : lookupA l k = none := by
  induction l with
  | nil => rfl
  | cons p t ih =>
    have hp := h p (List.mem_cons_self p t)
    simp only [lookupA, hp, if_neg, if_false]
    exact ih (fun q hq => h q (List.mem_cons_of_mem _ hq))

theorem lookupA_updateA_self (l : List (Nat × QueueItem)) (k : Nat)
    (f : QueueItem → QueueItem) :
    lookupA (updateA l k f) k = (lookupA l k).map f := by
  induction l with
  | nil => rfl
  | cons p t ih =>
    by_cases hk : p.1 = k
    · simp [updateA, lookupA, hk]
    · simp only [updateA, List.map_cons, if_neg hk]
      simp only [lookupA, if_neg hk]
      exact ih

theorem lookupA_updateA_ne {k k' : Nat} (l : List (Nat × QueueItem))
    (f : QueueItem → QueueItem) (h : k' ≠ k) :
    lookupA (updateA l k f) k' = lookupA l k' := by
  induction l with
  | nil => rfl
  | cons p t ih =>
    by_cases hk : p.1 = k
    · have hp : p.1 ≠ k' := by rw [hk]; exact fun he => h he.symm
      simp only [updateA, List.map_cons, if_pos hk]
      simp only [lookupA, hp, if_neg, if_false]
      simp only [updateA] at ih
      exact ih
    · simp only [updateA, List.map_cons, if_neg hk]
      by_cases hp : p.1 = k'
      · simp [lookupA, hp]
      · simp only [lookupA, hp, if_neg, if_false]
        simp only [updateA] at ih
        exact ih

theorem keys_updateA (l : List (Nat × QueueItem)) (k : Nat)
    (f : QueueItem → QueueItem) :
    (updateA l k f).map Prod.fst = l.map Prod.fst := by
  induction l with
  | nil => rfl
  | cons p t ih =>
    by_cases hk : p.1 = k
    · simp only [updateA, List.map_cons, if_pos hk]
      simp only [updateA] at ih
      simp [ih]
    · simp only [updateA, List.map_cons, if_neg hk]
      simp only [updateA] at ih
      simp [ih]

theorem mem_updateA {l : List (Nat × QueueItem)} {k : Nat}
    {f : QueueItem → QueueItem} {p' : Nat × QueueItem} (h : p' ∈ updateA l k f) :
    ∃ p ∈ l, p'.1 = p.1 ∧ ((p.1 ≠ k ∧ p' = p) ∨ (p.1 = k ∧ p' = (p.1, f p.2))) := by
  rcases List.mem_map.mp h with ⟨p, hp, he⟩
  by_cases hk : p.1 = k
  · refine ⟨p, hp, ?_, Or.inr ⟨hk, ?_⟩⟩ <;> rw [← he] <;> simp [hk]
  · refine ⟨p, hp, ?_, Or.inl ⟨hk, ?_⟩⟩ <;> rw [← he] <;> simp [hk]

theorem updateA_mem_of_mem {l : List (Nat × QueueItem)} {k : Nat}
    {f : QueueItem → QueueItem} {p : Nat × QueueItem} (h : p ∈ l) :
    (if p.1 = k then (p.1, f p.2) else p) ∈ updateA l k f :=
  List.mem_map.mpr ⟨p, h, rfl⟩

theorem insertA_fresh {l : List (Nat × QueueItem)} {k : Nat} {v : QueueItem}
    (h : ∀ p ∈ l, p.1 ≠ k) : insertA l k v = l ++ [(k, v)] := by
  unfold insertA
  have hany : l.any (fun p => p.1 == k) = false := by
    rw [List.any_eq_false]
    intro p hp
    simpa using h p hp
  rw [hany]
  simp

theorem lookupA_append_left {l l' : List (Nat × QueueItem)} {k : Nat} {v : QueueItem}
    (h : lookupA l k = some v) : lookupA (l ++ l') k = some v := by
  induction l with
  | nil => simp [lookupA] at h
  | cons p t ih =>
    by_cases hk : p.1 = k
    · simp only [lookupA, hk, if_pos] at h ⊢
      exact h
    · simp only [lookupA, hk, if_neg, if_false, List.cons_append] at h ⊢
      exact ih h

theorem lookupA_append_right {l l' : List (Nat × QueueItem)} {k : Nat}
    (h : lookupA l k = none) : lookupA (l ++ l') k = lookupA l' k := by
  induction l with
  | nil => rfl
  | cons p t ih =>
    by_cases hk : p.1 = k
    · simp [lookupA, hk] at h
    · simp only [lookupA, hk, if_neg, if_false, List.cons_append] at h ⊢
      exact ih h

theorem inv_queueStart {s : InferenceQueue} (h : QueueInv s) :
    QueueInv (queueStart s) := by
  unfold queueStart
  split
  · exact h
  · exact h

theorem inv_queueStop {s : InferenceQueue} (h : QueueInv s) :
    QueueInv (queueStop s) := h

theorem inv_updateA_preserving {s : InferenceQueue} {id : Nat}
    {f : QueueItem → QueueItem}
    (hf : ∀ it, (f it).status = it.status ∧ (f it).result = it.result)
    (h : QueueInv s) : QueueInv { s with items := updateA s.items id f } := by
  obtain ⟨h1, h2, h3, h4, h5, h6, h7, h8, h9, h10⟩ := h
  refine ⟨?_, h2, ?_, ?_, h5, ?_, h7, ?_, ?_, h10⟩
  · simpa [keys_updateA] using h1
  · intro j hj
    rcases h3 j hj with ⟨p, hp, hkey, hst⟩
    by_cases hk : p.1 = id
    · refine ⟨(p.1, f p.2), ?_, hkey, ?_⟩
      · have := updateA_mem_of_mem (k := id) (f := f) hp
        simpa [hk] using this
      · simpa [(hf p.2).1] using hst
    · refine ⟨p, ?_, hkey, hst⟩
      have := updateA_mem_of_mem (k := id) (f := f) hp
      simpa [hk] using this
  · intro p' hp' hst
    rcases mem_updateA hp' with ⟨p, hp, hkey, hcases⟩
    rcases hcases with ⟨_, he⟩ | ⟨_, he⟩
    · rw [he] at hst
      rw [hkey]
      exact h4 p hp hst
    · rw [hkey]
      apply h4 p hp
      have : p'.2 = f p.2 := by rw [he]
      rw [this, (hf p.2).1] at hst
      exact hst
  · intro p' hp'
    rcases mem_updateA hp' with ⟨p, hp, hkey, _⟩
    rw [hkey]
    exact h6 p hp
  · intro cid hcid
    rcases h8 cid hcid with ⟨hnq, hlt, p, hp, hkey, hst⟩
    refine ⟨hnq, hlt, ?_⟩
    by_cases hk : p.1 = id
    · refine ⟨(p.1, f p.2), ?_, hkey, ?_⟩
      · have := updateA_mem_of_mem (k := id) (f := f) hp
        simpa [hk] using this
      · simpa [(hf p.2).1] using hst
    · refine ⟨p, ?_, hkey, hst⟩
      have := updateA_mem_of_mem (k := id) (f := f) hp
      simpa [hk] using this
  · intro p' hp' hst
    rcases mem_updateA hp' with ⟨p, hp, hkey, hcases⟩
    rcases hcases with ⟨_, he⟩ | ⟨_, he⟩
    · rw [he] at hst ⊢
      exact h9 p hp hst
    · have h2' : p'.2 = f p.2 := by rw [he]
      rw [h2', (hf p.2).2]
      rw [h2', (hf p.2).1] at hst
      exact h9 p hp hst

theorem inv_setProgressQ {s : InferenceQueue} {id : Nat} {p t : Int}
    (h : QueueInv s) : QueueInv (setProgressQ s id p t) :=
  inv_updateA_preserving (fun _ => ⟨rfl, rfl⟩) h

theorem inv_cleanupOld {s : InferenceQueue} {age : Nat} (h : QueueInv s) :
    QueueInv (cleanupOld s age).2 := by
  obtain ⟨h1, h2, h3, h4, h5, h6, h7, h8, h9, h10⟩ := h
  have hsub : ∀ p ∈ (cleanupOld s age).2.items, p ∈ s.items := by
    intro p hp
    exact (List.mem_filter.mp hp).1
  have hkeep : ∀ p ∈ s.items, p.2.status ≠ ItemStatus.completed →
      p.2.status ≠ ItemStatus.failed → p ∈ (cleanupOld s age).2.items := by
    intro p hp hc hf
    apply List.mem_filter.mpr
    refine ⟨hp, ?_⟩
    simp only [shouldRemoveB, Bool.not_eq_eq_eq_not, Bool.not_true]
    cases hs : p.2.status <;> simp_all
  refine ⟨?_, h2, ?_, ?_, h5, ?_, h7, ?_, ?_, h10⟩
  · have : (cleanupOld s age).2.items.Sublist s.items := List.filter_sublist _
    exact h1.sublist (this.map Prod.fst)
  · intro j hj
    rcases h3 j hj with ⟨p, hp, hkey, hst⟩
    exact ⟨p, hkeep p hp (by rw [hst]; simp) (by rw [hst]; simp), hkey, hst⟩
  · intro p hp hst
    exact h4 p (hsub p hp) hst
  · intro p hp
    exact h6 p (hsub p hp)
  · intro cid hcid
    rcases h8 cid hcid with ⟨hnq, hlt, p, hp, hkey, hst⟩
    exact ⟨hnq, hlt, p, hkeep p hp (by rw [hst]; simp) (by rw [hst]; simp), hkey, hst⟩
  · intro p hp hst
    exact h9 p (hsub p hp) hst


theorem mem_unique_of_nodup_keys {l : List (Nat × QueueItem)}
    (hd : (l.map Prod.fst).Nodup) {p q : Nat × QueueItem}
    (hp : p ∈ l) (hq : q ∈ l) (hk : p.1 = q.1) : p = q := by
  have e1 : lookupA l p.1 = some p.2 := lookupA_eq_some_of_mem hd hp
  have e2 : lookupA l q.1 = some q.2 := lookupA_eq_some_of_mem hd hq
  rw [hk, e2] at e1
  exact Prod.ext hk (Option.some.inj e1).symm

theorem inv_submitQ {s : InferenceQueue} (r : Req) (h : QueueInv s) :
    QueueInv (submitQ s r).2 := by
  obtain ⟨h1, h2, h3, h4, h5, h6, h7, h8, h9, h10⟩ := h
  by_cases hfull : 0 < s.maxSize ∧ s.maxSize ≤ s.queue.length
  · simp only [submitQ, if_pos hfull]
    exact ⟨h1, h2, h3, h4, h5, h6, h7, h8, h9, h10⟩
  · have hlen : s.queue.length < s.maxSize := by
      rcases Nat.lt_or_ge s.queue.length s.maxSize with hlt | hge
      · exact hlt
      · exact absurd ⟨h10, hge⟩ hfull
    have hfresh : ∀ p ∈ s.items, p.1 ≠ s.nextId :=
      fun p hp => Nat.ne_of_lt (h6 p hp)
    simp only [submitQ, if_neg hfull]
    rw [insertA_fresh hfresh]
    refine ⟨?_, ?_, ?_, ?_, ?_, ?_, ?_, ?_, ?_, h10⟩
    · rw [List.map_append]
      refine List.Nodup.append h1 (by simp) ?_
      intro a ha hb
      simp only [List.map_cons, List.map_nil, List.mem_singleton] at hb
      rcases List.mem_map.mp ha with ⟨p, hp, he⟩
      exact hfresh p hp (he.symm ▸ hb)
    · rw [List.pairwise_append]
      refine ⟨h2, by simp, ?_⟩
      intro a ha b hb
      simp only [List.mem_singleton] at hb
      exact hb ▸ h7 a ha
    · intro j hj
      rcases List.mem_append.mp hj with hj | hj
      · rcases h3 j hj with ⟨p, hp, hkey, hst⟩
        exact ⟨p, List.mem_append_left _ hp, hkey, hst⟩
      · simp only [List.mem_singleton] at hj
        refine ⟨(s.nextId,
          ⟨s.nextId, r, ItemStatus.pending, s.time, none, none, none, none, 0,
            pyDictGet r "steps" (PyVal.vInt 30)⟩),
          List.mem_append_right _ (by simp), by simp [hj], rfl⟩
    · intro p hp hst
      rcases List.mem_append.mp hp with hp | hp
      · exact List.mem_append_left _ (h4 p hp hst)
      · simp only [List.mem_singleton] at hp
        rw [hp]
        exact List.mem_append_right _ (by simp)
    · simpa using Nat.succ_le_of_lt hlen
    · intro p hp
      rcases List.mem_append.mp hp with hp | hp
      · exact Nat.lt_trans (h6 p hp) (Nat.lt_succ_self _)
      · simp only [List.mem_singleton] at hp
        rw [hp]
        exact Nat.lt_succ_self _
    · intro j hj
      rcases List.mem_append.mp hj with hj | hj
      · exact Nat.lt_trans (h7 j hj) (Nat.lt_succ_self _)
      · simp only [List.mem_singleton] at hj
        rw [hj]
        exact Nat.lt_succ_self _
    · intro cid hcid
      rcases h8 cid hcid with ⟨hnq, hlt, p, hp, hkey, hst⟩
      refine ⟨?_, Nat.lt_trans hlt (Nat.lt_succ_self _),
        p, List.mem_append_left _ hp, hkey, hst⟩
      intro hmem
      rcases List.mem_append.mp hmem with hmem | hmem
      · exact hnq hmem
      · simp only [List.mem_singleton] at hmem
        exact Nat.ne_of_lt hlt hmem
    · intro p hp hst
      rcases List.mem_append.mp hp with hp | hp
      · exact h9 p hp hst
      · simp only [List.mem_singleton] at hp
        rw [hp]
        rfl

theorem inv_dequeueQ {s : InferenceQueue} (h : QueueInv s) :
    QueueInv (dequeueQ s) := by
  obtain ⟨h1, h2, h3, h4, h5, h6, h7, h8, h9, h10⟩ := h
  cases hq : s.queue with
  | nil =>
    simp only [dequeueQ, hq]
    exact ⟨h1, h2, h3, h4, h5, h6, h7, h8, h9, h10⟩
  | cons hd rest =>
    simp only [dequeueQ, hq]
    rw [hq] at h2 h3 h4 h5 h7
    have hhdlt : ∀ j ∈ rest, hd < j := (List.pairwise_cons.mp h2).1
    refine ⟨?_, (List.pairwise_cons.mp h2).2, ?_, ?_, ?_, ?_, ?_, ?_, ?_, h10⟩
    · simpa [keys_updateA] using h1
    · intro j hj
      rcases h3 j (List.mem_cons_of_mem _ hj) with ⟨p, hp, hkey, hst⟩
      have hne : p.1 ≠ hd := by
        rw [hkey]
        exact Nat.ne_of_gt (hhdlt j hj)
      refine ⟨p, ?_, hkey, hst⟩
      have := updateA_mem_of_mem (k := hd) (f := markProcessing s.time) hp
      simpa [hne] using this
    · intro p' hp' hst
      replace hp' : p' ∈ updateA s.items hd (markProcessing s.time) := hp'
      rcases mem_updateA hp' with ⟨p, hp, hkey, hcases⟩
      rcases hcases with ⟨hne, he⟩ | ⟨_, he⟩
      · rw [he] at hst
        rw [hkey]
        rcases List.mem_cons.mp (h4 p hp hst) with hh | hh
        · exact absurd hh hne
        · exact hh
      · rw [he] at hst
        simp [markProcessing] at hst
    · exact Nat.le_of_succ_le (by simpa using h5)
    · intro p' hp'
      replace hp' : p' ∈ updateA s.items hd (markProcessing s.time) := hp'
      rcases mem_updateA hp' with ⟨p, hp, hkey, _⟩
      rw [hkey]
      exact h6 p hp
    · intro j hj
      exact h7 j (List.mem_cons_of_mem _ hj)
    · intro cid hcid
      simp only [Option.toList_some, List.mem_singleton] at hcid
      rcases h3 hd (List.mem_cons_self _ _) with ⟨p, hp, hkey, hst⟩
      have hlt' : cid < s.nextId := by
        rw [hcid]
        exact h7 hd (List.mem_cons_self _ _)
      have hnm : cid ∉ rest := by
        rw [hcid]
        intro hmem
        exact Nat.lt_irrefl hd (hhdlt hd hmem)
      refine ⟨hnm, hlt', (hd, markProcessing s.time p.2), ?_, hcid.symm, rfl⟩
      have himg := updateA_mem_of_mem (k := hd) (f := markProcessing s.time) hp
      simpa [hkey] using himg
    · intro p' hp' hst
      replace hp' : p' ∈ updateA s.items hd (markProcessing s.time) := hp'
      rcases mem_updateA hp' with ⟨p, hp, hkey, hcases⟩
      rcases hcases with ⟨_, he⟩ | ⟨hke, he⟩
      · rw [he] at hst ⊢
        exact h9 p hp hst
      · have hpend : p.2.status = ItemStatus.pending := by
          rcases h3 hd (List.mem_cons_self _ _) with ⟨q, hq', hkq, hsq⟩
          have hpq : p = q := mem_unique_of_nodup_keys h1 hp hq' (by rw [hke, hkq])
          rw [hpq]
          exact hsq
        have hres : p'.2.result = p.2.result := by
          rw [he]
          rfl
        rw [hres]
        exact h9 p hp (by rw [hpend]; simp)

theorem finishItem_status (wf : Option WorkerFn) (now : Nat) (it : QueueItem) :
    (finishItem wf now it).status = ItemStatus.completed ∨
    (finishItem wf now it).status = ItemStatus.failed := by
  cases wf with
  | none => exact Or.inr rfl
  | some f =>
    cases hr : f it with
    | ok v =>
      left
      simp [finishItem, hr]
    | error m =>
      right
      simp [finishItem, hr]

theorem finishItem_terminal (wf : Option WorkerFn) (now : Nat) (it : QueueItem) :
    terminalB (finishItem wf now it).status = true := by
  rcases finishItem_status wf now it with h | h <;> rw [h] <;> rfl

theorem finishItem_status_ne_pending (wf : Option WorkerFn) (now : Nat) (it : QueueItem) :
    (finishItem wf now it).status ≠ ItemStatus.pending := by
  rcases finishItem_status wf now it with h | h <;> rw [h] <;> simp

theorem finishItem_result_of_ne (wf : Option WorkerFn) (now : Nat) (it : QueueItem)
    (h : (finishItem wf now it).status ≠ ItemStatus.completed) :
    (finishItem wf now it).result = it.result := by
  cases wf with
  | none => rfl
  | some f =>
    cases hr : f it with
    | ok v =>
      exfalso
      apply h
      simp [finishItem, hr]
    | error m =>
      simp [finishItem, hr]

theorem finishItem_completedAt (wf : Option WorkerFn) (now : Nat) (it : QueueItem) :
    (finishItem wf now it).completedAt = some now := by
  cases wf with
  | none => rfl
  | some f => cases hr : f it <;> simp [finishItem, hr]

theorem inv_processQ {wf : Option WorkerFn} {s : InferenceQueue} (h : QueueInv s) :
    QueueInv (workerProcessQ wf s) := by
  obtain ⟨h1, h2, h3, h4, h5, h6, h7, h8, h9, h10⟩ := h
  cases hc : s.currentItem with
  | none =>
    simp only [workerProcessQ, hc]
    exact ⟨h1, h2, h3, h4, h5, h6, h7, h8, h9, h10⟩
  | some cid =>
    rcases h8 cid (by rw [hc]; simp) with ⟨hnq, hlt, p₀, hp₀, hkey₀, hst₀⟩
    have hl : lookupA s.items cid = some p₀.2 := by
      rw [← hkey₀]
      exact lookupA_eq_some_of_mem h1 hp₀
    have key : ∀ it' : QueueItem, it'.status ≠ ItemStatus.pending →
        (it'.status ≠ ItemStatus.completed → it'.result.isNone = true) →
        QueueInv { s with items := updateA s.items cid (fun _ => it'),
                          currentItem := none, time := s.time + 1 } := by
      intro it' hnp hnr
      refine ⟨?_, h2, ?_, ?_, h5, ?_, h7, by simp, ?_, h10⟩
      · simpa [keys_updateA] using h1
      · intro j hj
        rcases h3 j hj with ⟨p, hp, hkey, hst⟩
        have hne : p.1 ≠ cid := by
          rw [hkey]
          intro he
          exact hnq (he ▸ hj)
        refine ⟨p, ?_, hkey, hst⟩
        have := updateA_mem_of_mem (k := cid) (f := fun _ => it') hp
        simpa [hne] using this
      · intro p' hp' hst
        replace hp' : p' ∈ updateA s.items cid (fun _ => it') := hp'
        rcases mem_updateA hp' with ⟨p, hp, hkey, hcases⟩
        rcases hcases with ⟨_, he⟩ | ⟨_, he⟩
        · rw [he] at hst
          rw [hkey]
          exact h4 p hp hst
        · rw [he] at hst
          exact absurd hst hnp
      · intro p' hp'
        replace hp' : p' ∈ updateA s.items cid (fun _ => it') := hp'
        rcases mem_updateA hp' with ⟨p, hp, hkey, _⟩
        rw [hkey]
        exact h6 p hp
      · intro p' hp' hst
        replace hp' : p' ∈ updateA s.items cid (fun _ => it') := hp'
        rcases mem_updateA hp' with ⟨p, hp, hkey, hcases⟩
        rcases hcases with ⟨_, he⟩ | ⟨_, he⟩
        · rw [he] at hst ⊢
          exact h9 p hp hst
        · rw [he] at hst ⊢
          exact hnr hst
    have hres₀ : p₀.2.result.isNone = true :=
      h9 p₀ hp₀ (by rw [hst₀]; simp)
    simp only [workerProcessQ, hc, hl]
    refine key (finishItem wf s.time p₀.2) (finishItem_status_ne_pending wf s.time p₀.2)
      (fun hne => ?_)
    rw [finishItem_result_of_ne wf s.time p₀.2 hne]
    exact hres₀

theorem step_inv {wf : Option WorkerFn} {s s' : InferenceQueue}
    (h : QueueInv s) (hs : Step wf s s') : QueueInv s' := by
  cases hs with
  | submit r => exact inv_submitQ r h
  | dequeue => exact inv_dequeueQ h
  | process => exact inv_processQ h
  | setProgress id p t => exact inv_setProgressQ h
  | cleanup age => exact inv_cleanupOld h
  | start => exact inv_queueStart h
  | stop => exact inv_queueStop h

theorem pyOrNat_pos (o : Option Nat) (d : Nat) (hd : 0 < d) : 0 < pyOrNat o d := by
  cases o with
  | none => exact hd
  | some n =>
    cases n with
    | zero => exact hd
    | succ m => exact Nat.succ_pos m

theorem mkQueue_inv (m t : Option Nat) : QueueInv (mkQueue m t) := by
  refine ⟨?_, ?_, ?_, ?_, ?_, ?_, ?_, ?_, ?_, ?_⟩ <;>
    simp [mkQueue, pyOrNat_pos m 10 (by norm_num)]

theorem reachable_inv {wf : Option WorkerFn} {m t : Option Nat}
    {s : InferenceQueue} (h : Reachable wf (mkQueue m t) s) : QueueInv s := by
  induction h with
  | refl => exact mkQueue_inv m t
  | tail _ hstep ih => exact step_inv ih hstep

theorem processQ_queue (wf : Option WorkerFn) (t : InferenceQueue) :
    (workerProcessQ wf t).queue = t.queue := by
  cases hc : t.currentItem with
  | none => simp [workerProcessQ, hc]
  | some cid =>
    cases hl : lookupA t.items cid with
    | none => simp [workerProcessQ, hc, hl]
    | some it => simp [workerProcessQ, hc, hl]

theorem drain_aux {wf : Option WorkerFn} :
    ∀ (k : Nat) (s : InferenceQueue), s.queue.length ≤ k → QueueInv s →
      ∀ j ∈ s.queue, ∃ n itj,
        lookupA (iterateN wf n s).items j = some itj ∧
        terminalB itj.status = true := by
  intro k
  induction k with
  | zero =>
    intro s hlen _ j hj
    have hnil : s.queue = [] := List.length_eq_zero.mp (Nat.le_zero.mp hlen)
    rw [hnil] at hj
    simp at hj
  | succ k ih =>
    intro s hlen hinv j hj
    have hinv' := hinv
    obtain ⟨h1, h2, h3, h4, h5, h6, h7, h8, h9, h10⟩ := hinv'
    cases hq : s.queue with
    | nil =>
      rw [hq] at hj
      simp at hj
    | cons hd rest =>
      have hdq : dequeueQ s =
          { s with
            queue := rest
            items := updateA s.items hd (markProcessing s.time)
            currentItem := some hd
            time := s.time + 1 } := by
        simp [dequeueQ, hq]
      rcases h3 hd (by rw [hq]; exact List.mem_cons_self _ _) with ⟨p, hp, hkeyp, hstp⟩
      have hlook0 : lookupA s.items hd = some p.2 := by
        rw [← hkeyp]
        exact lookupA_eq_some_of_mem h1 hp
      have hlook1 : lookupA (dequeueQ s).items hd = some (markProcessing s.time p.2) := by
        rw [hdq]
        show lookupA (updateA s.items hd (markProcessing s.time)) hd = _
        rw [lookupA_updateA_self, hlook0]
        rfl
      have hcur : (dequeueQ s).currentItem = some hd := by rw [hdq]
      have hitems : (iterateQ wf s).items =
          updateA (dequeueQ s).items hd
            (fun _ => finishItem wf (dequeueQ s).time (markProcessing s.time p.2)) := by
        unfold iterateQ
        simp [workerProcessQ, hcur, hlook1]
      have hqueue1 : (iterateQ wf s).queue = rest := by
        unfold iterateQ
        rw [processQ_queue, hdq]
      by_cases hj_hd : j = hd
      · subst hj_hd
        refine ⟨1, finishItem wf (dequeueQ s).time (markProcessing s.time p.2), ?_,
          finishItem_terminal _ _ _⟩
        show lookupA (iterateQ wf s).items j = _
        rw [hitems, lookupA_updateA_self, hlook1]
        rfl
      · have hjrest : j ∈ rest := by
          rw [hq] at hj
          rcases List.mem_cons.mp hj with hh | hh
          · exact absurd hh hj_hd
          · exact hh
        have hinv1 : QueueInv (iterateQ wf s) := inv_processQ (inv_dequeueQ hinv)
        have hlen1 : (iterateQ wf s).queue.length ≤ k := by
          rw [hqueue1]
          rw [hq] at hlen
          simpa using Nat.le_of_succ_le_succ hlen
        rcases ih (iterateQ wf s) hlen1 hinv1 j (by rw [hqueue1]; exact hjrest) with
          ⟨n, itj, hlk, hterm⟩
        exact ⟨n + 1, itj, hlk, hterm⟩

theorem drain {wf : Option WorkerFn} {s : InferenceQueue} (hinv : QueueInv s) :
    ∀ j ∈ s.queue, ∃ n itj,
      lookupA (iterateN wf n s).items j = some itj ∧
      terminalB itj.status = true :=
  drain_aux s.queue.length s (Nat.le_refl _) hinv

theorem terminal_not_active {st : ItemStatus} (h : terminalB st = true) :
    st ≠ ItemStatus.pending ∧ st ≠ ItemStatus.processing := by
  cases st <;> simp_all [terminalB]

theorem lookupA_none_no_key {l : List (Nat × QueueItem)} {k : Nat}
    (h : lookupA l k = none) : ∀ p ∈ l, p.1 ≠ k := by
  induction l with
  | nil => intro p hp; simp at hp
  | cons q t ih =>
    intro p hp
    by_cases hq : q.1 = k
    · simp [lookupA, hq] at h
    · rcases List.mem_cons.mp hp with hh | hh
      · rw [hh]
        exact hq
      · simp only [lookupA, hq, if_neg, if_false] at h
        exact ih h p hh

theorem processQ_nextId (wf : Option WorkerFn) (t : InferenceQueue) :
    (workerProcessQ wf t).nextId = t.nextId := by
  cases hc : t.currentItem with
  | none => simp [workerProcessQ, hc]
  | some cid =>
    cases hl : lookupA t.items cid with
    | none => simp [workerProcessQ, hc, hl]
    | some it => simp [workerProcessQ, hc, hl]

theorem step_nextId_mono {wf : Option WorkerFn} {a b : InferenceQueue}
    (h : Step wf a b) : a.nextId ≤ b.nextId := by
  cases h with
  | submit r =>
    by_cases hfull : 0 < a.maxSize ∧ a.maxSize ≤ a.queue.length
    · simp [submitQ, if_pos hfull]
    · simp [submitQ, if_neg hfull]
  | dequeue =>
    cases hq : a.queue with
    | nil => simp [dequeueQ, hq]
    | cons hd rest => simp [dequeueQ, hq]
  | process => rw [processQ_nextId]
  | setProgress id p t => exact Nat.le_refl _
  | cleanup age => exact Nat.le_refl _
  | start =>
    unfold queueStart
    split <;> exact Nat.le_refl _
  | stop => exact Nat.le_refl _

theorem lookupA_insert_map_ne {l : List (Nat × QueueItem)} {k k' : Nat}
    (v : QueueItem) (h : k' ≠ k) :
    lookupA (l.map (fun p => if p.1 = k then (p.1, v) else p)) k' = lookupA l k' :=
  lookupA_updateA_ne l (fun _ => v) h

theorem step_no_recreate {wf : Option WorkerFn} {a b : InferenceQueue} {id : Nat}
    (hstep : Step wf a b) (hnone : lookupA a.items id = none)
    (hlt : id < a.nextId) : lookupA b.items id = none := by
  have hnk : ∀ p ∈ a.items, p.1 ≠ id := lookupA_none_no_key hnone
  cases hstep with
  | submit r =>
    by_cases hfull : 0 < a.maxSize ∧ a.maxSize ≤ a.queue.length
    · simp only [submitQ, if_pos hfull]
      exact hnone
    · simp only [submitQ, if_neg hfull]
      unfold insertA
      split
      · rw [lookupA_insert_map_ne _ (Nat.ne_of_lt hlt)]
        exact hnone
      · rw [lookupA_append_right hnone]
        simp [lookupA, Nat.ne_of_gt hlt]
  | dequeue =>
    cases hq : a.queue with
    | nil =>
      simp only [dequeueQ, hq]
      exact hnone
    | cons hd rest =>
      have hb : dequeueQ a =
          { a with
            queue := rest
            items := updateA a.items hd (markProcessing a.time)
            currentItem := some hd
            time := a.time + 1 } := by
        simp [dequeueQ, hq]
      rw [hb]
      show lookupA (updateA a.items hd (markProcessing a.time)) id = none
      by_cases hih : id = hd
      · rw [hih, lookupA_updateA_self]
        rw [← hih, hnone]
        rfl
      · rw [lookupA_updateA_ne _ _ hih]
        exact hnone
  | process =>
    cases hc : a.currentItem with
    | none =>
      simp only [workerProcessQ, hc]
      exact hnone
    | some cid =>
      cases hl : lookupA a.items cid with
      | none =>
        simp only [workerProcessQ, hc, hl]
        exact hnone
      | some itc =>
        simp only [workerProcessQ, hc, hl]
        show lookupA (updateA a.items cid (fun _ => finishItem wf a.time itc)) id = none
        by_cases hih : id = cid
        · rw [hih, lookupA_updateA_self]
          rw [← hih, hnone]
          rfl
        · rw [lookupA_updateA_ne _ _ hih]
          exact hnone
  | setProgress pid p t =>
    show lookupA (updateA a.items pid
      (fun it => { it with progress := p, totalSteps := PyVal.vInt t })) id = none
    by_cases hih : id = pid
    · rw [hih, lookupA_updateA_self]
      rw [← hih, hnone]
      rfl
    · rw [lookupA_updateA_ne _ _ hih]
      exact hnone
  | cleanup age =>
    show lookupA (a.items.filter (fun p => !(shouldRemoveB a.time age p.2))) id = none
    apply lookupA_none_of_not_mem
    intro p hp
    exact hnk p (List.mem_filter.mp hp).1
  | start =>
    unfold queueStart
    split
    · exact hnone
    · exact hnone
  | stop => exact hnone

theorem terminal_frozen_step {wf : Option WorkerFn} {a b : InferenceQueue}
    {id : Nat} {it it' : QueueItem}
    (hinv : QueueInv a) (hstep : Step wf a b)
    (hit : lookupA a.items id = some it) (hterm : terminalB it.status = true)
    (hit' : lookupA b.items id = some it') :
    it'.status = it.status ∧ it'.result = it.result ∧ it'.error = it.error ∧
    it'.startedAt = it.startedAt ∧ it'.completedAt = it.completedAt ∧
    it'.createdAt = it.createdAt ∧ it'.id = it.id ∧ it'.request = it.request := by
  obtain ⟨h1, h2, h3, h4, h5, h6, h7, h8, h9, h10⟩ := hinv
  have same_of : lookupA a.items id = some it' →
      it'.status = it.status ∧ it'.result = it.result ∧ it'.error = it.error ∧
      it'.startedAt = it.startedAt ∧ it'.completedAt = it.completedAt ∧
      it'.createdAt = it.createdAt ∧ it'.id = it.id ∧ it'.request = it.request := by
    intro hsame
    rw [hit] at hsame
    have : it' = it := (Option.some.inj hsame).symm
    rw [this]
    exact ⟨rfl, rfl, rfl, rfl, rfl, rfl, rfl, rfl⟩
  cases hstep with
  | submit r =>
    by_cases hfull : 0 < a.maxSize ∧ a.maxSize ≤ a.queue.length
    · simp only [submitQ, if_pos hfull] at hit'
      exact same_of hit'
    · have hfresh : ∀ p ∈ a.items, p.1 ≠ a.nextId :=
        fun p hp => Nat.ne_of_lt (h6 p hp)
      simp only [submitQ, if_neg hfull] at hit'
      rw [insertA_fresh hfresh] at hit'
      rw [lookupA_append_left hit] at hit'
      have : it' = it := (Option.some.inj hit').symm
      rw [this]
      exact ⟨rfl, rfl, rfl, rfl, rfl, rfl, rfl, rfl⟩
  | dequeue =>
    cases hq : a.queue with
    | nil =>
      rw [show dequeueQ a = a by simp [dequeueQ, hq]] at hit'
      exact same_of hit'
    | cons hd rest =>
      have hb : dequeueQ a =
          { a with
            queue := rest
            items := updateA a.items hd (markProcessing a.time)
            currentItem := some hd
            time := a.time + 1 } := by
        simp [dequeueQ, hq]
      rw [hb] at hit'
      replace hit' : lookupA (updateA a.items hd (markProcessing a.time)) id = some it' :=
        hit'
      have hne : id ≠ hd := by
        intro he
        rcases h3 hd (by rw [hq]; exact List.mem_cons_self _ _) with ⟨p, hp, hkey, hst⟩
        have hl : lookupA a.items hd = some p.2 := by
          rw [← hkey]
          exact lookupA_eq_some_of_mem h1 hp
        rw [he, hl] at hit
        have : it = p.2 := Option.some.inj hit.symm
        rw [this, hst] at hterm
        simp [terminalB] at hterm
      rw [lookupA_updateA_ne _ _ hne] at hit'
      exact same_of hit'
  | process =>
    cases hc : a.currentItem with
    | none =>
      rw [show workerProcessQ wf a = a by simp [workerProcessQ, hc]] at hit'
      exact same_of hit'
    | some cid =>
      cases hl : lookupA a.items cid with
      | none =>
        rw [show workerProcessQ wf a = { a with currentItem := none } by
          simp [workerProcessQ, hc, hl]] at hit'
        exact same_of hit'
      | some itc =>
        have hb : workerProcessQ wf a =
            { a with
              items := updateA a.items cid (fun _ => finishItem wf a.time itc)
              currentItem := none
              time := a.time + 1 } := by
          simp [workerProcessQ, hc, hl]
        rw [hb] at hit'
        replace hit' :
            lookupA (updateA a.items cid (fun _ => finishItem wf a.time itc)) id =
              some it' := hit'
        have hne : id ≠ cid := by
          intro he
          rcases h8 cid (by rw [hc]; simp) with ⟨hnq, hlt, p, hp, hkey, hst⟩
          have hl2 : lookupA a.items cid = some p.2 := by
            rw [← hkey]
            exact lookupA_eq_some_of_mem h1 hp
          rw [he, hl2] at hit
          have : it = p.2 := Option.some.inj hit.symm
          rw [this, hst] at hterm
          simp [terminalB] at hterm
        rw [lookupA_updateA_ne _ _ hne] at hit'
        exact same_of hit'
  | setProgress pid pr tt =>
    replace hit' : lookupA (updateA a.items pid
        (fun x => { x with progress := pr, totalSteps := PyVal.vInt tt })) id =
          some it' := hit'
    by_cases hih : id = pid
    · rw [hih] at hit'
      rw [lookupA_updateA_self] at hit'
      rw [← hih, hit] at hit'
      have : it' = { it with progress := pr, totalSteps := PyVal.vInt tt } :=
        (Option.some.inj hit').symm
      rw [this]
      exact ⟨rfl, rfl, rfl, rfl, rfl, rfl, rfl, rfl⟩
    · rw [lookupA_updateA_ne _ _ hih] at hit'
      exact same_of hit'
  | cleanup age =>
    replace hit' :
        lookupA (a.items.filter (fun p => !(shouldRemoveB a.time age p.2))) id =
          some it' := hit'
    have hmem : (id, it') ∈ a.items := (List.mem_filter.mp (lookupA_mem hit')).1
    exact same_of (lookupA_eq_some_of_mem h1 hmem)
  | start =>
    unfold queueStart at hit'
    split at hit'
    · exact same_of hit'
    · exact same_of hit'
  | stop => exact same_of hit'

/-- The empty request dict, used as a concrete payload in witnesses. -/
def rEmpty : Req := []

/-- A started queue of capacity 1 (the spec scenario `max_size=1`). -/
def c0 : InferenceQueue := queueStart (mkQueue (some 1) none)

/-- The capacity-1 queue after one accepted submission (job 0 Pending). -/
def c1 : InferenceQueue := (submitQ c0 rEmpty).2

/-- The capacity-1 queue after the worker dequeued job 0 (Processing). -/
def cD : InferenceQueue := dequeueQ c1

/-- The capacity-1 queue after the worker finished job 0 with no worker
function configured: job 0 is Failed. -/
def qF : InferenceQueue := workerProcessQ none cD

/-- The record of job 0 in `qF`, written out. -/
def itF : QueueItem :=
  ⟨0, rEmpty, ItemStatus.failed, 0, some 1, some 2, none,
    some "No worker function configured", 0, PyVal.vInt 30⟩

/-- A started queue with the default capacity 10. -/
def t0 : InferenceQueue := queueStart (mkQueue none none)

/-- The default queue after one accepted submission (job 0). -/
def t1 : InferenceQueue := (submitQ t0 rEmpty).2

/-- The default queue after two accepted submissions (jobs 0 and 1). -/
def t2 : InferenceQueue := (submitQ t1 rEmpty).2

/-- The default queue after two submissions and one dequeue: job 0 is the
current item in Processing, job 1 is Pending in the queue. -/
def t3 : InferenceQueue := dequeueQ t2

/-- C1: while the queue already holds max_size pending items, submit
raises QueueFullError carrying the observed queue size and the maximum,
returns at once rather than blocking, and leaves the whole state - job
registry, queue, fresh-id counter - unchanged: no record is created or
registered on a rejected submission. -/
theorem submit_full_rejects_without_registration (s : InferenceQueue) (r : Req)
    (hm : 0 < s.maxSize) (hfull : s.maxSize ≤ s.queue.length) :
    submitQ s r = (Except.error ⟨s.queue.length, s.maxSize⟩, s) := by
  have hc : 0 < s.maxSize ∧ s.maxSize ≤ s.queue.length := ⟨hm, hfull⟩
  simp [submitQ, if_pos hc]

theorem submit_full_rejects_witness :
    submitQ c1 rEmpty = (Except.error ⟨c1.queue.length, c1.maxSize⟩, c1) :=
  submit_full_rejects_without_registration c1 rEmpty (by decide) (by decide)

/-- C9 counterexample: constructing the queue with max_size = 0 is not
rejected.  The constructor returns normally, the configured default
capacity 10 is silently substituted, and the resulting queue is usable:
a submission to it is accepted. -/
theorem mkQueue_zero_not_rejected :
    (mkQueue (some 0) none).maxSize = 10 ∧
    (submitQ (mkQueue (some 0) none) rEmpty).1.isOk = true := by
  exact ⟨rfl, rfl⟩

/-- C9 amended: constructing with max_size = 0 does not fail and does not
produce a zero-capacity queue; because 0 is falsy in the `or`-default,
the constructor behaves exactly as if no max_size had been given and
yields a usable queue with the configured default capacity 10. -/
theorem mkQueue_zero_uses_default (t : Option Nat) :
    mkQueue (some 0) t = mkQueue none t ∧ (mkQueue (some 0) t).maxSize = 10 :=
  ⟨rfl, rfl⟩

/-- C5 counterexample: with capacity 1, after job 0 is dequeued
(Processing) its queue slot is free, so a second submit is accepted while
one job is unresolved, and the number of Pending-or-Processing jobs
reaches 2 > 1 = max.  The claimed bound on Pending+Processing and the
claimed rejection of a submit issued while max-many unresolved jobs
exist are both false. -/
theorem unresolved_exceeds_capacity :
    cD.maxSize = 1 ∧ unresolvedCount cD = 1 ∧
    (submitQ cD rEmpty).1.isOk = true ∧
    unresolvedCount (submitQ cD rEmpty).2 = 2 := by
  exact ⟨rfl, rfl, rfl, rfl⟩

/-- C5 amended: the capacity bounds the Pending jobs only.  In every
reachable state the number of Pending jobs is at most max_size, and a
submit issued while max_size jobs are Pending fails with the admission
error carrying (max, max); a Processing job no longer occupies a slot,
so Pending+Processing may reach max_size + 1. -/
theorem pending_bounded_by_capacity (wf : Option WorkerFn) (m t : Option Nat)
    (s : InferenceQueue) (h : Reachable wf (mkQueue m t) s) :
    pendingCount s ≤ s.maxSize ∧
    (pendingCount s = s.maxSize → ∀ r,
      (submitQ s r).1 = Except.error ⟨s.maxSize, s.maxSize⟩) := by
  have hinv := reachable_inv h
  obtain ⟨h1, h2, h3, h4, h5, h6, h7, h8, h9, h10⟩ := hinv
  have hkeysub :
      ((s.items.filter (fun p => p.2.status == ItemStatus.pending)).map Prod.fst) ⊆
        s.queue := by
    intro x hx
    rcases List.mem_map.mp hx with ⟨p, hp, he⟩
    have hmem := List.mem_filter.mp hp
    have hst : p.2.status = ItemStatus.pending := by simpa using hmem.2
    rw [← he]
    exact h4 p hmem.1 hst
  have hnodup :
      (((s.items.filter (fun p => p.2.status == ItemStatus.pending)).map Prod.fst)).Nodup :=
    h1.sublist ((List.filter_sublist _).map _)
  have hle : pendingCount s ≤ s.queue.length := by
    have hsp := List.subperm_of_subset hnodup hkeysub
    have hl := hsp.length_le
    simpa [pendingCount] using hl
  refine ⟨le_trans hle h5, ?_⟩
  intro hpc r
  have hql : s.maxSize ≤ s.queue.length := by
    rw [← hpc]
    exact hle
  have hqe : s.queue.length = s.maxSize := Nat.le_antisymm h5 hql
  simp [submitQ, hqe, h10]

theorem pending_bounded_witness :
    (submitQ c1 rEmpty).1 = Except.error ⟨c1.maxSize, c1.maxSize⟩ :=
  (pending_bounded_by_capacity none (some 1) none c1
    ((Relation.ReflTransGen.refl.tail (Step.start (mkQueue (some 1) none))).tail
      (Step.submit c0 rEmpty))).2 (by decide) rEmpty

/-- C4 counterexample: job 0 in `qF` is Failed (terminal), yet the
set_progress operation still mutates it: its progress field changes from
0 to 5 and its total steps to 10.  The claim that no core operation
mutates any field of a terminal record is false. -/
theorem set_progress_mutates_terminal :
    (lookupA qF.items 0).map QueueItem.status = some ItemStatus.failed ∧
    terminalB ItemStatus.failed = true ∧
    (lookupA qF.items 0).map QueueItem.progress = some 0 ∧
    (lookupA (setProgressQ qF 0 5 10).items 0).map QueueItem.progress = some 5 ∧
    (lookupA (setProgressQ qF 0 5 10).items 0).map QueueItem.totalSteps =
      some (PyVal.vInt 10) :=
  ⟨rfl, rfl, rfl, rfl, rfl⟩

/-- C4 amended: once a record is terminal, no core operation - submit,
either worker-loop half, set_progress, cleanup, start, stop - ever
changes its status, result, error, timestamps, id or request; in
particular the status never changes again, and the only removal is the
cleanup operation (a removed record simply no longer satisfies the
lookup hypothesis).  The one exception forced by the code is that
set_progress still overwrites the progress and total_steps fields of a
terminal record, there being no status guard in set_progress. -/
theorem terminal_record_core_frozen (wf : Option WorkerFn)
    (a b : InferenceQueue) (id : Nat) (it it' : QueueItem)
    (hinv : QueueInv a) (hstep : Step wf a b)
    (hit : lookupA a.items id = some it)
    (hterm : terminalB it.status = true)
    (hit' : lookupA b.items id = some it') :
    (it'.status = it.status ∧ it'.result = it.result ∧ it'.error = it.error ∧
     it'.startedAt = it.startedAt ∧ it'.completedAt = it.completedAt ∧
     it'.createdAt = it.createdAt ∧ it'.id = it.id ∧ it'.request = it.request) ∧
    (∀ pr tt : Int, lookupA (setProgressQ a id pr tt).items id =
      some { it with progress := pr, totalSteps := PyVal.vInt tt }) := by
  constructor
  · exact terminal_frozen_step hinv hstep hit hterm hit'
  · intro pr tt
    show lookupA (updateA a.items id
      (fun x => { x with progress := pr, totalSteps := PyVal.vInt tt })) id = _
    rw [lookupA_updateA_self, hit]
    rfl

theorem terminal_record_core_frozen_witness :
    lookupA (setProgressQ qF 0 5 10).items 0 =
      some { itF with progress := 5, totalSteps := PyVal.vInt 10 } :=
  (terminal_record_core_frozen none qF (setProgressQ qF 0 5 10) 0 itF
    { itF with progress := 5, totalSteps := PyVal.vInt 10 }
    (by decide) (Step.setProgress qF 0 5 10) rfl (by decide) rfl).2 5 10

/-- C2: when the callback of the current job raises, the worker marks the
job Failed, stores the stringified exception as its error, stamps
completed_at, clears the current-job pointer, leaves the running flag
and the queue of waiting jobs untouched, and every job still waiting in
the queue is dequeued and driven to a terminal status by later loop
iterations - a single failure never halts processing. -/
theorem worker_failure_isolated (f : WorkerFn) (s : InferenceQueue)
    (cid : Nat) {it : QueueItem} (msg : String)
    (hinv : QueueInv s)
    (hcur : s.currentItem = some cid)
    (hit : lookupA s.items cid = some it)
    (hf : f it = Except.error msg) :
    (∃ it', lookupA (workerProcessQ (some f) s).items cid = some it' ∧
      it'.status = ItemStatus.failed ∧ it'.error = some msg ∧
      it'.completedAt = some s.time) ∧
    (workerProcessQ (some f) s).currentItem = none ∧
    (workerProcessQ (some f) s).running = s.running ∧
    (workerProcessQ (some f) s).queue = s.queue ∧
    (∀ j ∈ s.queue, ∃ n itj,
      lookupA (iterateN (some f) n (workerProcessQ (some f) s)).items j =
        some itj ∧ terminalB itj.status = true) := by
  have hb : workerProcessQ (some f) s =
      { s with
        items := updateA s.items cid (fun _ => finishItem (some f) s.time it)
        currentItem := none
        time := s.time + 1 } := by
    simp [workerProcessQ, hcur, hit]
  have hfin : finishItem (some f) s.time it =
      { it with status := ItemStatus.failed, error := some msg,
                completedAt := some s.time } := by
    simp [finishItem, hf]
  refine ⟨⟨finishItem (some f) s.time it, ?_, ?_, ?_, ?_⟩, ?_, ?_, ?_, ?_⟩
  · rw [hb]
    show lookupA (updateA s.items cid (fun _ => finishItem (some f) s.time it)) cid = _
    rw [lookupA_updateA_self, hit]
    rfl
  · rw [hfin]
  · rw [hfin]
  · rw [hfin]
  · rw [hb]
  · rw [hb]
  · rw [hb]
  · intro j hj
    have hinv' : QueueInv (workerProcessQ (some f) s) := inv_processQ hinv
    have hq' : (workerProcessQ (some f) s).queue = s.queue := by rw [hb]
    exact drain hinv' j (by rw [hq']; exact hj)

/-- The always-raising callback used to witness failure isolation. -/
def fBoom : WorkerFn := fun _ => Except.error "boom"

theorem worker_failure_isolated_witness :
    (workerProcessQ (some fBoom) t3).currentItem = none ∧
    (workerProcessQ (some fBoom) t3).queue = t3.queue :=
  ⟨(worker_failure_isolated fBoom t3 0 "boom" (by decide) rfl rfl rfl).2.1,
   (worker_failure_isolated fBoom t3 0 "boom" (by decide) rfl rfl rfl).2.2.2.1⟩

/-- C3: strict FIFO.  Identifiers record submission order - an accepted
submit appends the fresh identifier, larger than every identifier
already issued, to the tail of the queue - and the worker dequeues from
the head.  In every reachable state whose queue is a :: rest, job a was
submitted before every job in rest, the dequeue step moves exactly a to
Processing and publishes it as the current job, while every
later-submitted queued job stays Pending and queued in order: a
transitions from Pending to Processing strictly before any job submitted
after it does. -/
theorem fifo_dequeue_earliest (wf : Option WorkerFn) (m t : Option Nat)
    (s : InferenceQueue) (a : Nat) (rest : List Nat)
    (h : Reachable wf (mkQueue m t) s) (hq : s.queue = a :: rest) :
    (∀ b ∈ rest, a < b) ∧
    (∀ id ∈ s.queue, id < s.nextId) ∧
    (∀ r, (submitQ s r).1.isOk = true →
      (submitQ s r).2.queue = s.queue ++ [s.nextId]) ∧
    (∃ ita, lookupA (dequeueQ s).items a = some ita ∧
      ita.status = ItemStatus.processing) ∧
    (dequeueQ s).currentItem = some a ∧
    (∀ b ∈ rest, ∃ itb, lookupA (dequeueQ s).items b = some itb ∧
      itb.status = ItemStatus.pending) ∧
    (dequeueQ s).queue = rest := by
  have hinv := reachable_inv h
  obtain ⟨h1, h2, h3, h4, h5, h6, h7, h8, h9, h10⟩ := hinv
  have hb : dequeueQ s =
      { s with
        queue := rest
        items := updateA s.items a (markProcessing s.time)
        currentItem := some a
        time := s.time + 1 } := by
    simp [dequeueQ, hq]
  have hpw := h2
  rw [hq] at hpw
  have hlt : ∀ b ∈ rest, a < b := (List.pairwise_cons.mp hpw).1
  refine ⟨hlt, h7, ?_, ?_, ?_, ?_, ?_⟩
  · intro r hr
    by_cases hfull : 0 < s.maxSize ∧ s.maxSize ≤ s.queue.length
    · simp [submitQ, if_pos hfull, Except.isOk, Except.toBool] at hr
    · simp [submitQ, if_neg hfull]
  · rcases h3 a (by rw [hq]; exact List.mem_cons_self _ _) with ⟨p, hp, hkey, hst⟩
    have hl : lookupA s.items a = some p.2 := by
      rw [← hkey]
      exact lookupA_eq_some_of_mem h1 hp
    refine ⟨markProcessing s.time p.2, ?_, rfl⟩
    rw [hb]
    show lookupA (updateA s.items a (markProcessing s.time)) a = _
    rw [lookupA_updateA_self, hl]
    rfl
  · rw [hb]
  · intro b hbm
    rcases h3 b (by rw [hq]; exact List.mem_cons_of_mem _ hbm) with ⟨p, hp, hkey, hst⟩
    have hl : lookupA s.items b = some p.2 := by
      rw [← hkey]
      exact lookupA_eq_some_of_mem h1 hp
    refine ⟨p.2, ?_, hst⟩
    rw [hb]
    show lookupA (updateA s.items a (markProcessing s.time)) b = _
    rw [lookupA_updateA_ne _ _ (Nat.ne_of_gt (hlt b hbm)), hl]
  · rw [hb]

theorem fifo_dequeue_earliest_witness :
    (dequeueQ t2).currentItem = some 0 ∧ (dequeueQ t2).queue = [1] :=
  ⟨(fifo_dequeue_earliest none none none t2 0 [1]
      (((Relation.ReflTransGen.refl.tail (Step.start (mkQueue none none))).tail
        (Step.submit t0 rEmpty)).tail (Step.submit t1 rEmpty)) rfl).2.2.2.2.1,
   (fifo_dequeue_earliest none none none t2 0 [1]
      (((Relation.ReflTransGen.refl.tail (Step.start (mkQueue none none))).tail
        (Step.submit t0 rEmpty)).tail (Step.submit t1 rEmpty)) rfl).2.2.2.2.2.2⟩

theorem reachable_nextId_mono {wf : Option WorkerFn} {a b : InferenceQueue}
    (h : Relation.ReflTransGen (Step wf) a b) : a.nextId ≤ b.nextId := by
  induction h with
  | refl => exact Nat.le_refl _
  | tail _ hstep ih => exact le_trans ih (step_nextId_mono hstep)

/-- C10: a Failed job never acquires a result.  In every reachable state
a Failed record has result None and get_result returns None for it,
exactly the absence value returned for an identifier that is not in the
registry at all; and this persists forever: in every state reachable
from one where the job is Failed, the record - if not removed by
cleanup - is still Failed with result None and get_result still returns
None.  Only a separate status lookup distinguishes the cases. -/
theorem failed_result_always_none (wf : Option WorkerFn) (m t : Option Nat)
    (s : InferenceQueue) (h : Reachable wf (mkQueue m t) s) :
    (∀ id it, lookupA s.items id = some it → it.status = ItemStatus.failed →
      it.result = none ∧ ∀ L, serviceGetResult ⟨some s, L⟩ id = none) ∧
    (∀ j, lookupA s.items j = none → ∀ L, serviceGetResult ⟨some s, L⟩ j = none) ∧
    (∀ s', Reachable wf s s' → ∀ id it, lookupA s.items id = some it →
      it.status = ItemStatus.failed → ∀ it', lookupA s'.items id = some it' →
      it'.status = ItemStatus.failed ∧ it'.result = none ∧
      ∀ L, serviceGetResult ⟨some s', L⟩ id = none) := by
  have hinv := reachable_inv h
  have hnone_of : ∀ (u : InferenceQueue) (id : Nat) (it : QueueItem),
      lookupA u.items id = some it → it.result = none →
      ∀ L, serviceGetResult ⟨some u, L⟩ id = none := by
    intro u id it hl hr L
    show getResultQ u id = none
    simp [getResultQ, hl, hr, pyNotOpt]
  have hfail_res : ∀ (u : InferenceQueue), QueueInv u →
      ∀ id it, lookupA u.items id = some it → it.status = ItemStatus.failed →
      it.result = none := by
    intro u hu id it hl hf
    have h9 := hu.2.2.2.2.2.2.2.2.1
    have hmem : (id, it) ∈ u.items := lookupA_mem hl
    have := h9 (id, it) hmem (by rw [hf]; simp)
    exact Option.isNone_iff_eq_none.mp this
  refine ⟨?_, ?_, ?_⟩
  · intro id it hl hf
    have hr := hfail_res s hinv id it hl hf
    exact ⟨hr, hnone_of s id it hl hr⟩
  · intro j hj L
    show getResultQ s j = none
    simp [getResultQ, hj]
  · intro s' hss
    induction hss with
    | refl =>
      intro id it hl hf it' hl'
      rw [hl] at hl'
      have he : it' = it := (Option.some.inj hl').symm
      rw [he]
      have hr := hfail_res s hinv id it hl hf
      exact ⟨hf, hr, hnone_of s id it hl hr⟩
    | tail hprev hstep ih =>
      rename_i b c
      intro id it hl hf it'' hl''
      have hinvb : QueueInv b := reachable_inv (Relation.ReflTransGen.trans h hprev)
      cases hlb : lookupA b.items id with
      | none =>
        exfalso
        have hlt : id < s.nextId := by
          have h6 := hinv.2.2.2.2.2.1
          exact h6 (id, it) (lookupA_mem hl)
        have hltb : id < b.nextId :=
          Nat.lt_of_lt_of_le hlt (reachable_nextId_mono hprev)
        have := step_no_recreate hstep hlb hltb
        rw [this] at hl''
        exact Option.noConfusion hl''
      | some itb =>
        have hbf := ih id it hl hf itb hlb
        have hbterm : terminalB itb.status = true := by
          rw [hbf.1]
          rfl
        have hfrozen := terminal_frozen_step hinvb hstep hlb hbterm hl''
        have hst : it''.status = ItemStatus.failed := by
          rw [hfrozen.1, hbf.1]
        have hres : it''.result = none := by
          rw [hfrozen.2.1, hbf.2.1]
        exact ⟨hst, hres, hnone_of c id it'' hl'' hres⟩

theorem failed_result_always_none_witness :
    serviceGetResult ⟨some qF, []⟩ 0 = none :=
  ((failed_result_always_none none (some 1) none qF
      ((((Relation.ReflTransGen.refl.tail (Step.start (mkQueue (some 1) none))).tail
        (Step.submit c0 rEmpty)).tail (Step.dequeue c1)).tail
        (Step.process cD))).1 0 itF rfl rfl).2 []

theorem lookupA_insert_map_self (l : List (Nat × QueueItem)) (k : Nat)
    (v : QueueItem) :
    lookupA (l.map (fun p => if p.1 = k then (p.1, v) else p)) k =
      (lookupA l k).map (fun _ => v) :=
  lookupA_updateA_self l k (fun _ => v)

theorem lookupA_isSome_of_any {l : List (Nat × QueueItem)} {k : Nat}
    (h : l.any (fun p => p.1 == k) = true) : (lookupA l k).isSome = true := by
  induction l with
  | nil => simp at h
  | cons p t ih =>
    by_cases hp : p.1 = k
    · simp [lookupA, hp]
    · simp only [List.any_cons, Bool.or_eq_true] at h
      rcases h with h | h
      · simp only [beq_iff_eq] at h
        exact absurd h hp
      · simp only [lookupA, hp, if_neg, if_false]
        exact ih h

theorem lookupA_insertA_self (l : List (Nat × QueueItem)) (k : Nat)
    (v : QueueItem) : lookupA (insertA l k v) k = some v := by
  by_cases ha : l.any (fun p => p.1 == k) = true
  · simp only [insertA, ha, if_true]
    rw [lookupA_insert_map_self]
    have hs := lookupA_isSome_of_any ha
    cases hl : lookupA l k with
    | none =>
      rw [hl] at hs
      simp at hs
    | some w => rfl
  · simp only [insertA, ha, Bool.false_eq_true, if_false]
    have hnk : ∀ p ∈ l, p.1 ≠ k := by
      intro p hp he
      apply ha
      rw [List.any_eq_true]
      exact ⟨p, hp, by simp [he]⟩
    rw [lookupA_append_right (lookupA_none_of_not_mem hnk)]
    simp [lookupA]

/-- The logging sink that always succeeds. -/
def okLog : LogFn := fun _ _ => Except.ok ()

/-- The logging sink that raises, modelling a failing request-log write. -/
def badLog : LogFn := fun _ _ => Except.error "disk full"

/-- The service before start: no queue installed. -/
def svc0 : ServiceState := ⟨none, []⟩

/-- The service right after start. -/
def svc1 : ServiceState := serviceStart svc0

/-- The started service after one accepted, successfully logged
submission: job 0 is registered in its queue. -/
def svc2 : ServiceState := (serviceSubmit okLog svc1 rEmpty).2

/-- C7 counterexample: job 0 is visible through get_status after it was
submitted, but calling start a second time installs a fresh queue and
the job is gone - the service start discards previously registered jobs
instead of leaving the state as a single start would. -/
theorem service_start_discards_registry :
    (serviceGetStatus svc2 0).isSome = true ∧
    serviceGetStatus (serviceStart svc2) 0 = none :=
  ⟨rfl, rfl⟩

/-- C7 amended: only the queue-level start is idempotent - calling it on
a running queue is a no-op.  The service-level start is not: every call
installs a freshly constructed started queue with an empty registry
(discarding all previously registered jobs), whatever the prior state
was; the request-log contents are untouched. -/
theorem queue_start_idempotent_service_start_replaces :
    (∀ q : InferenceQueue, queueStart (queueStart q) = queueStart q) ∧
    (∀ svc : ServiceState,
      (serviceStart svc).queue = some (queueStart (mkQueue none none)) ∧
      (serviceStart svc).loggedRequests = svc.loggedRequests) := by
  constructor
  · intro q
    by_cases hr : q.running
    · simp [queueStart, hr]
    · simp [queueStart, hr]
  · intro svc
    exact ⟨rfl, rfl⟩

/-- C8 counterexample: with a raising logging sink, the accepted
submission does not return the id/status pair - the logging exception
propagates out of submit - even though the job was already registered
and enqueued. -/
theorem log_failure_propagates_out_of_submit :
    (serviceSubmit badLog svc1 rEmpty).1 =
      Except.error (SubmitErr.logFailed "disk full") ∧
    (serviceGetStatus (serviceSubmit badLog svc1 rEmpty).2 0).isSome = true :=
  ⟨rfl, rfl⟩

/-- C8 amended: when the queue has room and the request-log write
raises, the service submit propagates the logging exception instead of
returning the id/status pair; the submission itself is not rolled
back - the queue state advances exactly as on a successful submit, the
new job is registered and enqueued (and will be processed) - and no
request-log entry is appended. -/
theorem log_failure_after_commit (logFn : LogFn) (svc : ServiceState)
    (q : InferenceQueue) (r : Req) (m : String)
    (hq : svc.queue = some q)
    (hroom : ¬(0 < q.maxSize ∧ q.maxSize ≤ q.queue.length))
    (hlog : logFn q.nextId r = Except.error m) :
    (serviceSubmit logFn svc r).1 = Except.error (SubmitErr.logFailed m) ∧
    (serviceSubmit logFn svc r).2.queue = some (submitQ q r).2 ∧
    (serviceSubmit logFn svc r).2.loggedRequests = svc.loggedRequests ∧
    (lookupA (submitQ q r).2.items q.nextId).isSome = true ∧
    q.nextId ∈ (submitQ q r).2.queue := by
  have hred : serviceSubmit logFn svc r =
      (Except.error (SubmitErr.logFailed m),
        { svc with queue := some (submitQ q r).2 }) := by
    simp only [serviceSubmit, hq, submitQ, if_neg hroom]
    rw [hlog]
  refine ⟨by rw [hred], by rw [hred], by rw [hred], ?_, ?_⟩
  · have h2 : lookupA (submitQ q r).2.items q.nextId =
        some ⟨q.nextId, r, ItemStatus.pending, q.time, none, none, none, none, 0,
          pyDictGet r "steps" (PyVal.vInt 30)⟩ := by
      simp only [submitQ, if_neg hroom]
      exact lookupA_insertA_self _ _ _
    rw [h2]
    rfl
  · have h3 : (submitQ q r).2.queue = q.queue ++ [q.nextId] := by
      simp only [submitQ, if_neg hroom]
    rw [h3]
    exact List.mem_append_right _ (by simp)

theorem log_failure_after_commit_witness :
    (serviceSubmit badLog svc1 rEmpty).1 =
      Except.error (SubmitErr.logFailed "disk full") :=
  (log_failure_after_commit badLog svc1 (queueStart (mkQueue none none))
    rEmpty "disk full" rfl (by decide) rfl).1

/-- The default queue after one submission and one dequeue: job 0 is the
current item, in Processing. -/
def d1 : InferenceQueue := dequeueQ t1

/-- A callback returning an empty dict - a falsy Python value. -/
def fFalsy : WorkerFn := fun _ => Except.ok (PyVal.vDict [])

/-- The queue after the worker completed job 0 with the falsy result. -/
def qFalsy : InferenceQueue := workerProcessQ (some fFalsy) d1

/-- A callback returning a truthy value. -/
def fOk : WorkerFn := fun _ => Except.ok (PyVal.vInt 7)

/-- C6 counterexample: a callback returning the empty dict drives job 0
to Completed with that value stored as its result, yet get_result
returns None rather than the value, because the source tests the
truthiness of the stored result (`if not item.result`).  The round-trip
therefore fails for this value the callback may produce. -/
theorem get_result_loses_falsy_value :
    (lookupA qFalsy.items 0).map QueueItem.status = some ItemStatus.completed ∧
    (lookupA qFalsy.items 0).map QueueItem.result = some (some (PyVal.vDict [])) ∧
    serviceGetResult ⟨some qFalsy, []⟩ 0 = none ∧
    serviceGetResult ⟨some qFalsy, []⟩ 0 ≠ some (PyVal.vDict []) := by
  refine ⟨rfl, rfl, rfl, ?_⟩
  intro hx
  have hn : serviceGetResult ⟨some qFalsy, []⟩ 0 = none := rfl
  rw [hn] at hx
  exact Option.noConfusion hx

/-- C6 amended: when the callback of the current job returns a truthy
value v, the job reaches Completed with result v and get_result returns
exactly v; for a falsy v (empty dict, 0, empty string, None) the job
still reaches Completed but get_result returns None instead of v. -/
theorem get_result_roundtrip_truthy (f : WorkerFn) (s : InferenceQueue)
    (cid : Nat) {it : QueueItem} (v : PyVal) (L : List (Nat × Req))
    (hcur : s.currentItem = some cid)
    (hit : lookupA s.items cid = some it)
    (hres : f it = Except.ok v)
    (htru : pyTruthy v = true) :
    ∃ it', lookupA (workerProcessQ (some f) s).items cid = some it' ∧
      it'.status = ItemStatus.completed ∧ it'.result = some v ∧
      serviceGetResult ⟨some (workerProcessQ (some f) s), L⟩ cid = some v := by
  have hb : workerProcessQ (some f) s =
      { s with
        items := updateA s.items cid (fun _ => finishItem (some f) s.time it)
        currentItem := none
        time := s.time + 1 } := by
    simp [workerProcessQ, hcur, hit]
  have hfin : finishItem (some f) s.time it =
      { it with result := some v, status := ItemStatus.completed,
                completedAt := some s.time } := by
    simp [finishItem, hres]
  have hlk : lookupA (workerProcessQ (some f) s).items cid =
      some (finishItem (some f) s.time it) := by
    rw [hb]
    show lookupA (updateA s.items cid (fun _ => finishItem (some f) s.time it)) cid = _
    rw [lookupA_updateA_self, hit]
    rfl
  refine ⟨finishItem (some f) s.time it, hlk, ?_, ?_, ?_⟩
  · rw [hfin]
  · rw [hfin]
  · show getResultQ (workerProcessQ (some f) s) cid = some v
    unfold getResultQ
    rw [hlk, hfin]
    simp [pyNotOpt, htru]

theorem get_result_roundtrip_truthy_witness :
    serviceGetResult ⟨some (workerProcessQ (some fOk) d1), []⟩ 0 =
      some (PyVal.vInt 7) := by
  rcases get_result_roundtrip_truthy fOk d1 0 (PyVal.vInt 7) [] rfl rfl rfl rfl with
    ⟨it', hl, hst, hr, hres⟩
  exact hres
